import Mathlib

/-!
Verification of the tail-reading core of SKILLAB-DevOps/resource_exporter
(src/script.py, handler get_logs, lines 133-157).

The embedding is a shallow translation of the Python source:
* bytes and text are lists of Nat (byte values, respectively Unicode code
  points);
* the filesystem state relevant to one call is an FsEntry value: the path is
  missing or not a regular file, or it is a regular file with a readability
  flag and a byte content;
* the reverse-scan while loop (lines 147-151) is tailLoopF, written with an
  explicit fuel argument so that it is structurally recursive; the theorem
  tailLoopF_total below proves that fuel equal to the initial cursor is never
  exhausted, which is exactly the termination of the source loop;
* bytes.splitlines (line 152) splits on the three terminators LF, CR, CRLF;
  it is modeled as terminator normalization (normEol) followed by a split on
  LF (splitNl);
* bytes.decode with errors equal to ignore (line 154) is modeled by the
  parameterized UTF-8 decoder utf8DecodeWith, which replaces each maximal
  subpart of an ill-formed sequence by the err parameter; ignore is err = [],
  and the replace policy that the spec describes is err = [0xFFFD];
* str(Path(file)) (lines 139, 154) is pathNorm, the purely syntactic
  PurePosixPath normalization.
-/

set_option maxHeartbeats 1000000
set_option maxRecDepth 8000

namespace ResourceExporter

/-- Strings are modeled as lists of Unicode code points; raw bytes are lists
of Nat byte values. -/
abbrev Str : Type := List Nat

/-- Model of the LogLines response model (src/script.py, lines 63-67): the
file field echoes the path, the lines field holds the decoded trailing
lines. -/
structure LogLines where
  file : Str
  lines : List Str
deriving DecidableEq

/-- Status of the requested path at call time, as the source distinguishes it
(line 140): missing when path.exists() is false, notRegular when it exists
but path.is_file() is false, and regular with a readability flag (opening
raises PermissionError exactly when the flag is false, line 156) and the byte
content of the file. -/
inductive FsEntry where
  | missing
  | notRegular
  | regular (readable : Bool) (content : List Nat)
deriving DecidableEq

/-- Block size of the reverse scan (src/script.py line 146: block = 8192). -/
def CHUNK : Nat := 8192

/-- The while loop of src/script.py lines 147-151.  State: cursor is the file
offset f.tell(), data the accumulated buffer; reads counts loop iterations
(each iteration performs one backward seek pair and one read).  The loop
continues while the cursor is positive and the buffer holds at most the
requested number of LF bytes; one iteration jumps back by
min cursor CHUNK bytes, reads that many bytes at the new offset and prepends
them to the buffer.  The fuel argument makes the recursion structural; the
theorem tailLoopF_total shows fuel = cursor always suffices, so the fuel is
not an extra exit path of the model. -/
def tailLoopF (file : List Nat) (lines : Nat) :
    Nat → Nat → List Nat → Nat → Option (List Nat × Nat)
  | fuel, cursor, data, reads =>
    if 0 < cursor ∧ data.count 10 ≤ lines then
      match fuel with
      | 0 => none
      | f + 1 =>
          tailLoopF file lines f (cursor - min cursor CHUNK)
            ((file.drop (cursor - min cursor CHUNK)).take (min cursor CHUNK) ++ data)
            (reads + 1)
    else some (data, reads)

/-- The reverse scan of get_logs: the cursor starts at the end of the file
(f.seek(0, os.SEEK_END), line 144) and the buffer starts empty (line 145).
Returns the final buffer together with the number of reads performed. -/
def tailScan (file : List Nat) (lines : Nat) : List Nat × Nat :=
  (tailLoopF file lines file.length file.length [] 0).getD ([], 0)

/-- Final accumulated buffer of the reverse scan (the variable data after the
loop of src/script.py lines 147-151). -/
def tailData (file : List Nat) (lines : Nat) : List Nat := (tailScan file lines).1

/-- Number of reads the reverse scan performs. -/
def tailReads (file : List Nat) (lines : Nat) : Nat := (tailScan file lines).2

/-- First half of bytes.splitlines (src/script.py line 152): normalize the
three line terminators LF, CR, CRLF to a single LF byte 10.  A CRLF pair
collapses to one terminator, a lone CR becomes one terminator. -/
def normEol : List Nat → List Nat
  | [] => []
  | [b] => [if b = 13 then 10 else b]
  | b :: c :: rest =>
    if b = 13 then
      if c = 10 then 10 :: normEol rest else 10 :: normEol (c :: rest)
    else b :: normEol (c :: rest)

/-- Second half of bytes.splitlines: split on byte 10.  Terminators are
stripped; a trailing fragment not ended by a terminator counts as a line; an
empty tail after the final terminator does not. -/
def splitNl : List Nat → List (List Nat)
  | [] => []
  | b :: rest =>
    if b = 10 then [] :: splitNl rest
    else
      match splitNl rest with
      | [] => [[b]]
      | l :: ls => (b :: l) :: ls

/-- Model of bytes.splitlines (src/script.py line 152): logical lines are the
maximal runs of bytes between LF, CR or CRLF boundaries; a final
non-terminated fragment is a line. -/
def splitlines (bs : List Nat) : List (List Nat) := splitNl (normEol bs)

/-- Python slice xs[-n:] (src/script.py line 152): the last n elements when
1 ≤ n, the whole list when n = 0 because Python reads -0 as 0. -/
def lastSlice (n : Nat) (xs : List (List Nat)) : List (List Nat) :=
  if n = 0 then xs else xs.drop (xs.length - n)

/-- UTF-8 continuation byte test (0x80 to 0xBF). -/
def isCont (b : Nat) : Bool := 0x80 ≤ b && b ≤ 0xBF

/-- Allowed first continuation byte after a three-byte lead, excluding
overlong encodings (lead 0xE0) and surrogates (lead 0xED). -/
def cont3Ok (b c : Nat) : Bool :=
  if b = 0xE0 then 0xA0 ≤ c && c ≤ 0xBF
  else if b = 0xED then 0x80 ≤ c && c ≤ 0x9F
  else isCont c

/-- Allowed first continuation byte after a four-byte lead, excluding
overlong encodings (lead 0xF0) and code points above 0x10FFFF (lead 0xF4). -/
def cont4Ok (b c : Nat) : Bool :=
  if b = 0xF0 then 0x90 ≤ c && c ≤ 0xBF
  else if b = 0xF4 then 0x80 ≤ c && c ≤ 0x8F
  else isCont c

/-- UTF-8 decoding with an explicit error policy, as the CPython decoder
implements it: each maximal subpart of an ill-formed sequence is replaced by
the err parameter and decoding resumes after that subpart.  The source
(src/script.py line 154) calls bytes.decode with errors set to ignore, which
is err = []; the replace error handler described by the spec is
err = [0xFFFD].  The fuel argument only makes the recursion structural: every
step consumes at least one byte while spending exactly one unit of fuel, so
the wrapper utf8DecodeWith, which passes the length of the input as fuel,
never reaches the fuel-exhausted case. -/
def utf8DecodeF (err : List Nat) : Nat → List Nat → List Nat
  | _, [] => []
  | 0, _ :: _ => []
  | fuel + 1, b :: rest =>
    if b < 0x80 then
      b :: utf8DecodeF err fuel rest
    else if 0xC2 ≤ b && b ≤ 0xDF then
      match rest with
      | [] => err
      | c1 :: rest1 =>
        if isCont c1 then
          ((b - 0xC0) * 0x40 + (c1 - 0x80)) :: utf8DecodeF err fuel rest1
        else err ++ utf8DecodeF err fuel rest
    else if 0xE0 ≤ b && b ≤ 0xEF then
      match rest with
      | [] => err
      | c1 :: rest1 =>
        if cont3Ok b c1 then
          match rest1 with
          | [] => err
          | c2 :: rest2 =>
            if isCont c2 then
              ((b - 0xE0) * 0x1000 + (c1 - 0x80) * 0x40 + (c2 - 0x80)) ::
                utf8DecodeF err fuel rest2
            else err ++ utf8DecodeF err fuel rest1
        else err ++ utf8DecodeF err fuel rest
    else if 0xF0 ≤ b && b ≤ 0xF4 then
      match rest with
      | [] => err
      | c1 :: rest1 =>
        if cont4Ok b c1 then
          match rest1 with
          | [] => err
          | c2 :: rest2 =>
            if isCont c2 then
              match rest2 with
              | [] => err
              | c3 :: rest3 =>
                if isCont c3 then
                  ((b - 0xF0) * 0x40000 + (c1 - 0x80) * 0x1000 +
                      (c2 - 0x80) * 0x40 + (c3 - 0x80)) ::
                    utf8DecodeF err fuel rest3
                else err ++ utf8DecodeF err fuel rest2
            else err ++ utf8DecodeF err fuel rest1
        else err ++ utf8DecodeF err fuel rest
    else err ++ utf8DecodeF err fuel rest

/-- UTF-8 decoding with error policy err, on the full input. -/
def utf8DecodeWith (err : List Nat) (bs : List Nat) : List Nat :=
  utf8DecodeF err bs.length bs

/-- bytes.decode with errors set to ignore (src/script.py line 154): drop
every ill-formed maximal subpart, keep the rest. -/
def decodeIgnore (bs : List Nat) : Str := utf8DecodeWith [] bs

/-- Modeled from the spec wording of the decoding policy: a lossy decode
where every ill-formed maximal subpart is substituted with the replacement
character U+FFFD instead of being dropped.  The claims compare the decode of
the source against this one. -/
def decodeReplace (bs : List Nat) : Str := utf8DecodeWith [0xFFFD] bs

/-- Model of str(Path(file)) (src/script.py lines 139 and 154): the purely
syntactic PurePosixPath normalization.  It drops empty and single-dot
components, keeps a double-slash root exactly when the path starts with
exactly two slashes, keeps a single-slash root for any other absolute path,
and renders the empty path as a single dot. -/
def pathNorm (p : Str) : Str :=
  let comps := (List.splitOn 47 p).filter (fun c => decide (c ≠ [] ∧ c ≠ [46]))
  let root : Str :=
    if p.take 2 = [47, 47] ∧ p.take 3 ≠ [47, 47, 47] then [47, 47]
    else if p.take 1 = [47] then [47]
    else []
  if comps = [] ∧ root = [] then [46] else root ++ List.intercalate [47] comps

/-- Model of the handler get_logs (src/script.py lines 133-157).  The file
argument is the requested path, entry the state of that path, lines the
validated line count.  Failures are the HTTP status codes raised through
HTTPException: 404 when the path is not an existing regular file (lines
140-141), 403 when opening raises PermissionError (lines 156-157). -/
def get_logs (file : Str) (entry : FsEntry) (lines : Nat) : Except Nat LogLines :=
  match entry with
  | .missing => .error 404
  | .notRegular => .error 404
  | .regular readable content =>
    if readable then
      let data := tailData content lines
      let last := lastSlice lines (splitlines data)
      .ok { file := pathNorm file, lines := last.map decodeIgnore }
    else .error 403

instance {ε α : Type _} [DecidableEq ε] [DecidableEq α] : DecidableEq (Except ε α)
  | .error e1, .error e2 => decidable_of_iff (e1 = e2) (by simp)
  | .error _, .ok _ => .isFalse (by simp)
  | .ok _, .error _ => .isFalse (by simp)
  | .ok a1, .ok a2 => decidable_of_iff (a1 = a2) (by simp)

/-! ### Lemmas about the reverse-scan loop -/

lemma chunk_pos : 0 < CHUNK := by norm_num [CHUNK]

/-- Exit equation of the loop: when the guard fails the loop returns the
current buffer, whatever fuel remains. -/
lemma tailLoopF_stop {file data : List Nat} {lines fuel cursor reads : Nat}
    (h : ¬(0 < cursor ∧ data.count 10 ≤ lines)) :
    tailLoopF file lines fuel cursor data reads = some (data, reads) := by
  cases fuel <;> · rw [tailLoopF, if_neg h]

/-- Step equation of the loop: when the guard holds the loop jumps back by
min cursor CHUNK bytes, prepends the bytes it read and counts one read. -/
lemma tailLoopF_step {file data : List Nat} {lines f cursor reads : Nat}
    (h1 : 0 < cursor) (h2 : data.count 10 ≤ lines) :
    tailLoopF file lines (f + 1) cursor data reads =
      tailLoopF file lines f (cursor - min cursor CHUNK)
        ((file.drop (cursor - min cursor CHUNK)).take (min cursor CHUNK) ++ data)
        (reads + 1) := by
  rw [tailLoopF, if_pos ⟨h1, h2⟩]

/-- Fuel equal to the cursor is always enough: every iteration consumes one
unit of fuel and moves the cursor at least one byte towards zero, so the loop
of the source terminates on every input. -/
lemma tailLoopF_total (file : List Nat) (lines : Nat) :
    ∀ fuel cursor data reads, cursor ≤ fuel →
      ∃ out, tailLoopF file lines fuel cursor data reads = some out := by
  intro fuel
  induction fuel with
  | zero =>
    intro cursor data reads hc
    have h0 : cursor = 0 := Nat.le_zero.mp hc
    subst h0
    exact ⟨(data, reads), tailLoopF_stop (by simp)⟩
  | succ f ih =>
    intro cursor data reads hc
    by_cases h : 0 < cursor ∧ data.count 10 ≤ lines
    · rw [tailLoopF_step h.1 h.2]
      apply ih
      have hC := chunk_pos
      have h1 : 0 < cursor := h.1
      omega
    · exact ⟨(data, reads), tailLoopF_stop h⟩

/-- The loop guard fails exactly when the cursor is zero or the buffer holds
more than the requested number of LF bytes. -/
lemma tailLoopF_exit {data : List Nat} {lines cursor : Nat}
    (h : ¬(0 < cursor ∧ data.count 10 ≤ lines)) :
    cursor = 0 ∨ lines + 1 ≤ data.count 10 := by
  push_neg at h
  rcases Nat.eq_zero_or_pos cursor with h0 | hpos
  · exact Or.inl h0
  · exact Or.inr (h hpos)

/-- Loop invariant: starting from a buffer that is the suffix of the file at
the cursor, the loop ends with a buffer that is the suffix of the file at
some smaller cursor, and at exit either the whole file was consumed or the
buffer holds at least lines + 1 LF bytes. -/
lemma tailLoopF_inv (file : List Nat) (lines : Nat) :
    ∀ fuel cursor data reads out,
      cursor ≤ file.length → data = file.drop cursor →
      tailLoopF file lines fuel cursor data reads = some out →
      ∃ c2, c2 ≤ cursor ∧ out.1 = file.drop c2 ∧
        (c2 = 0 ∨ lines + 1 ≤ out.1.count 10) := by
  intro fuel
  induction fuel with
  | zero =>
    intro cursor data reads out hc hd hout
    by_cases h : 0 < cursor ∧ data.count 10 ≤ lines
    · rw [tailLoopF, if_pos h] at hout; cases hout
    · rw [tailLoopF_stop h] at hout
      obtain rfl : (data, reads) = out := Option.some.inj hout
      exact ⟨cursor, le_refl _, hd, by simpa [← hd] using tailLoopF_exit h⟩
  | succ f ih =>
    intro cursor data reads out hc hd hout
    by_cases h : 0 < cursor ∧ data.count 10 ≤ lines
    · rw [tailLoopF_step h.1 h.2] at hout
      have hmin : min cursor CHUNK ≤ cursor := Nat.min_le_left _ _
      have hnew : (file.drop (cursor - min cursor CHUNK)).take (min cursor CHUNK) ++ data
          = file.drop (cursor - min cursor CHUNK) := by
        subst hd
        have hdd : List.drop (min cursor CHUNK) (List.drop (cursor - min cursor CHUNK) file)
            = List.drop cursor file := by
          rw [List.drop_drop]; congr 1; omega
        conv_lhs => rw [← hdd]
        exact List.take_append_drop _ _
      rw [hnew] at hout
      obtain ⟨c2, hle, h1, h2⟩ :=
        ih (cursor - min cursor CHUNK) _ (reads + 1) out (by omega) rfl hout
      exact ⟨c2, by omega, h1, h2⟩
    · rw [tailLoopF_stop h] at hout
      obtain rfl : (data, reads) = out := Option.some.inj hout
      exact ⟨cursor, le_refl _, hd, by simpa [← hd] using tailLoopF_exit h⟩

/-- Buffer size bound: if the last k bytes of the file hold more than the
requested number of LF bytes, the loop never buffers k + CHUNK bytes or
more (it can stop reading at most one chunk after the guard count is
reached). -/
lemma tailLoopF_len (file : List Nat) (lines k : Nat)
    (hk : lines < (file.drop (file.length - k)).count 10) :
    ∀ fuel cursor data reads out,
      cursor ≤ file.length → data = file.drop cursor →
      tailLoopF file lines fuel cursor data reads = some out →
      out.1.length < k + CHUNK ∨ out.1.length ≤ data.length := by
  intro fuel
  induction fuel with
  | zero =>
    intro cursor data reads out hc hd hout
    by_cases h : 0 < cursor ∧ data.count 10 ≤ lines
    · rw [tailLoopF, if_pos h] at hout; cases hout
    · rw [tailLoopF_stop h] at hout
      obtain rfl : (data, reads) = out := Option.some.inj hout
      exact Or.inr (le_refl _)
  | succ f ih =>
    intro cursor data reads out hc hd hout
    by_cases h : 0 < cursor ∧ data.count 10 ≤ lines
    · rw [tailLoopF_step h.1 h.2] at hout
      -- while the guard holds the buffer is shorter than k bytes
      have hlt : data.length < k := by
        by_contra hge
        push_neg at hge
        have hdl : data.length = file.length - cursor := by
          rw [hd, List.length_drop]
        have hcur : cursor ≤ file.length - k := by omega
        have hsub : file.drop (file.length - k) =
            List.drop ((file.length - k) - cursor) data := by
          rw [hd, List.drop_drop]; congr 1; omega
        have hcount : (file.drop (file.length - k)).count 10 ≤ data.count 10 := by
          rw [hsub]; exact (List.drop_sublist _ _).count_le 10
        omega
      have hmin : min cursor CHUNK ≤ cursor := Nat.min_le_left _ _
      have hminC : min cursor CHUNK ≤ CHUNK := Nat.min_le_right _ _
      have hnewlen :
          ((file.drop (cursor - min cursor CHUNK)).take (min cursor CHUNK) ++ data).length
            < k + CHUNK := by
        have := List.length_take_le (min cursor CHUNK) (file.drop (cursor - min cursor CHUNK))
        rw [List.length_append]
        omega
      have hnew : (file.drop (cursor - min cursor CHUNK)).take (min cursor CHUNK) ++ data
          = file.drop (cursor - min cursor CHUNK) := by
        subst hd
        have hdd : List.drop (min cursor CHUNK) (List.drop (cursor - min cursor CHUNK) file)
            = List.drop cursor file := by
          rw [List.drop_drop]; congr 1; omega
        conv_lhs => rw [← hdd]
        exact List.take_append_drop _ _
      rcases ih (cursor - min cursor CHUNK) _ (reads + 1) out (by omega) hnew
          hout with hsmall | hmono
      · exact Or.inl hsmall
      · exact Or.inl (by omega)
    · rw [tailLoopF_stop h] at hout
      obtain rfl : (data, reads) = out := Option.some.inj hout
      exact Or.inr (le_refl _)

/-- Read count bound: the loop performs at most one read per started chunk of
the initial cursor position. -/
lemma tailLoopF_reads (file : List Nat) (lines : Nat) :
    ∀ fuel cursor data reads out,
      tailLoopF file lines fuel cursor data reads = some out →
      out.2 ≤ reads + (cursor + CHUNK - 1) / CHUNK := by
  intro fuel
  induction fuel with
  | zero =>
    intro cursor data reads out hout
    by_cases h : 0 < cursor ∧ data.count 10 ≤ lines
    · rw [tailLoopF, if_pos h] at hout; cases hout
    · rw [tailLoopF_stop h] at hout
      obtain rfl : (data, reads) = out := Option.some.inj hout
      exact Nat.le_add_right _ _
  | succ f ih =>
    intro cursor data reads out hout
    by_cases h : 0 < cursor ∧ data.count 10 ≤ lines
    · rw [tailLoopF_step h.1 h.2] at hout
      have hrec := ih _ _ _ _ hout
      have hC := chunk_pos
      have harith : (cursor - min cursor CHUNK + CHUNK - 1) / CHUNK + 1
          ≤ (cursor + CHUNK - 1) / CHUNK := by
        rcases le_or_lt CHUNK cursor with hge | hlt
        · have hmin : min cursor CHUNK = CHUNK := Nat.min_eq_right hge
          rw [hmin]
          have he1 : cursor - CHUNK + CHUNK - 1 = cursor - 1 := by omega
          have he2 : cursor + CHUNK - 1 = cursor - 1 + CHUNK := by omega
          rw [he1, he2, Nat.add_div_right _ hC]
        · have hmin : min cursor CHUNK = cursor := Nat.min_eq_left (le_of_lt hlt)
          rw [hmin]
          have he1 : cursor - cursor + CHUNK - 1 = CHUNK - 1 := by omega
          rw [he1, Nat.div_eq_of_lt (by omega)]
          have h1 : 0 < cursor := h.1
          have : CHUNK ≤ cursor + CHUNK - 1 := by omega
          have := (Nat.one_le_div_iff hC).mpr this
          omega
      omega
    · rw [tailLoopF_stop h] at hout
      obtain rfl : (data, reads) = out := Option.some.inj hout
      exact Nat.le_add_right _ _

/-- The scan buffer is a suffix of the file, and at exit either it is the
whole file or it holds at least lines + 1 LF bytes. -/
lemma tailData_spec (file : List Nat) (lines : Nat) :
    ∃ c2, c2 ≤ file.length ∧ tailData file lines = file.drop c2 ∧
      (c2 = 0 ∨ lines + 1 ≤ (tailData file lines).count 10) := by
  obtain ⟨out, hout⟩ :=
    tailLoopF_total file lines file.length file.length [] 0 (le_refl _)
  have hdata : tailData file lines = out.1 := by
    rw [tailData, tailScan, hout]; rfl
  obtain ⟨c2, hle, h1, h2⟩ := tailLoopF_inv file lines file.length file.length [] 0 out
    (le_refl _) (by rw [List.drop_length]) hout
  exact ⟨c2, hle, by rw [hdata, h1], by rw [hdata]; exact h2⟩

/-! ### Lemmas about splitlines -/

lemma normEol_cons10 (v : List Nat) : normEol (10 :: v) = 10 :: normEol v := by
  cases v with
  | nil => simp [normEol]
  | cons c w => simp [normEol]

/-- Terminator normalization distributes at an LF byte: everything before the
LF is normalized separately from everything after it (an LF never merges with
a following byte). -/
lemma normEol_append_nl : ∀ (n : Nat) (u v : List Nat), u.length ≤ n →
    normEol (u ++ 10 :: v) = normEol (u ++ [10]) ++ normEol v := by
  intro n
  induction n with
  | zero =>
    intro u v hu
    obtain rfl : u = [] := List.eq_nil_of_length_eq_zero (Nat.le_zero.mp hu)
    rw [List.nil_append, List.nil_append, normEol_cons10]
    simp [normEol]
  | succ n ih =>
    intro u v hu
    rcases u with _ | ⟨b, _ | ⟨c, u2⟩⟩
    · rw [List.nil_append, List.nil_append, normEol_cons10]
      simp [normEol]
    · by_cases hb : b = 13
      · subst hb; simp [normEol]
      · simp [normEol, hb, normEol_cons10]
    · have hlen : u2.length + 2 ≤ n + 1 := by simpa using hu
      by_cases hb : b = 13
      · by_cases hc : c = 10
        · subst hb; subst hc
          have h3 := ih u2 v (by omega)
          simp only [List.cons_append]
          simp [normEol, h3]
        · subst hb
          have h3 := ih (c :: u2) v (by simp; omega)
          simp only [List.cons_append] at h3
          simp only [List.cons_append]
          simp [normEol, hc, h3]
      · have h3 := ih (c :: u2) v (by simp; omega)
        simp only [List.cons_append] at h3
        simp only [List.cons_append]
        simp [normEol, hb, h3]

/-- The normalization of a byte string ending in LF ends in LF. -/
lemma normEol_nl_suffix : ∀ (n : Nat) (u : List Nat), u.length ≤ n →
    ∃ w, normEol (u ++ [10]) = w ++ [10] := by
  intro n
  induction n with
  | zero =>
    intro u hu
    obtain rfl : u = [] := List.eq_nil_of_length_eq_zero (Nat.le_zero.mp hu)
    exact ⟨[], by simp [normEol]⟩
  | succ n ih =>
    intro u hu
    rcases u with _ | ⟨b, _ | ⟨c, u2⟩⟩
    · exact ⟨[], by simp [normEol]⟩
    · by_cases hb : b = 13
      · subst hb; exact ⟨[], by simp [normEol]⟩
      · exact ⟨[b], by simp [normEol, hb]⟩
    · have hlen : u2.length + 2 ≤ n + 1 := by simpa using hu
      by_cases hb : b = 13
      · by_cases hc : c = 10
        · subst hb; subst hc
          obtain ⟨w, hw⟩ := ih u2 (by omega)
          refine ⟨10 :: w, ?_⟩
          simp only [List.cons_append]
          simp [normEol, hw]
        · subst hb
          obtain ⟨w, hw⟩ := ih (c :: u2) (by simp; omega)
          simp only [List.cons_append] at hw
          refine ⟨10 :: w, ?_⟩
          simp only [List.cons_append]
          simp [normEol, hc, hw]
      · obtain ⟨w, hw⟩ := ih (c :: u2) (by simp; omega)
        simp only [List.cons_append] at hw
        refine ⟨b :: w, ?_⟩
        simp only [List.cons_append]
        simp [normEol, hb, hw]

/-- Normalization never loses LF bytes (a CRLF keeps its LF, a lone CR even
adds one). -/
lemma count10_le_normEol : ∀ (n : Nat) (bs : List Nat), bs.length ≤ n →
    bs.count 10 ≤ (normEol bs).count 10 := by
  intro n
  induction n with
  | zero =>
    intro bs hb
    obtain rfl : bs = [] := List.eq_nil_of_length_eq_zero (Nat.le_zero.mp hb)
    simp [normEol]
  | succ n ih =>
    intro bs hb
    rcases bs with _ | ⟨b, _ | ⟨c, bs2⟩⟩
    · simp [normEol]
    · by_cases hb13 : b = 13
      · subst hb13; simp [normEol, List.count_cons]
      · simp [normEol, hb13, List.count_cons]
    · have hlen : bs2.length + 2 ≤ n + 1 := by simpa using hb
      by_cases hb13 : b = 13
      · by_cases hc : c = 10
        · subst hb13; subst hc
          have h3 := ih bs2 (by omega)
          simp [normEol, List.count_cons]
          omega
        · subst hb13
          have h3 := ih (c :: bs2) (by simp; omega)
          simp [List.count_cons, hc] at h3
          simp [normEol, hc, List.count_cons]
          omega
      · have h3 := ih (c :: bs2) (by simp; omega)
        simp [List.count_cons] at h3
        simp [normEol, hb13, List.count_cons]
        omega

/-- Normalization removes every CR byte. -/
lemma not_mem13_normEol : ∀ (n : Nat) (bs : List Nat), bs.length ≤ n →
    13 ∉ normEol bs := by
  intro n
  induction n with
  | zero =>
    intro bs hb
    obtain rfl : bs = [] := List.eq_nil_of_length_eq_zero (Nat.le_zero.mp hb)
    simp [normEol]
  | succ n ih =>
    intro bs hb
    rcases bs with _ | ⟨b, _ | ⟨c, bs2⟩⟩
    · simp [normEol]
    · by_cases hb13 : b = 13
      · subst hb13; simp [normEol]
      · simp [normEol, hb13]
        intro h
        exact hb13 h.symm
    · have hlen : bs2.length + 2 ≤ n + 1 := by simpa using hb
      by_cases hb13 : b = 13
      · by_cases hc : c = 10
        · subst hb13; subst hc
          have h3 := ih bs2 (by omega)
          simp [normEol]
          exact h3
        · subst hb13
          have h3 := ih (c :: bs2) (by simp; omega)
          simp [normEol, hc]
          exact h3
      · have h3 := ih (c :: bs2) (by simp; omega)
        simp [normEol, hb13]
        constructor
        · intro h; exact hb13 h.symm
        · exact h3

lemma splitNl_eq_nil {xs : List Nat} : splitNl xs = [] ↔ xs = [] := by
  cases xs with
  | nil => simp [splitNl]
  | cons b rest =>
    rw [splitNl]
    by_cases hb : b = 10
    · simp [hb]
    · rw [if_neg hb]
      cases hsp : splitNl rest <;> simp

/-- Splitting on LF distributes over an append whose left part ends in LF. -/
lemma splitNl_append_nl : ∀ (w x : List Nat),
    splitNl ((w ++ [10]) ++ x) = splitNl (w ++ [10]) ++ splitNl x := by
  intro w
  induction w with
  | nil =>
    intro x
    simp only [List.nil_append, List.singleton_append]
    rw [splitNl, if_pos rfl]
    simp [splitNl]
  | cons a w ih =>
    intro x
    rcases hsp : splitNl (w ++ [10]) with _ | ⟨l, ls⟩
    · exact absurd (splitNl_eq_nil.mp hsp) (by simp)
    · by_cases ha : a = 10
      · subst ha
        simp only [List.cons_append]
        rw [splitNl, if_pos rfl, splitNl, if_pos rfl, ih x]
        simp
      · simp only [List.cons_append]
        rw [splitNl, if_neg ha, splitNl, if_neg ha, ih x, hsp]
        simp

/-- Each LF byte opens one more segment: the split has at least as many
segments as there are LF bytes. -/
lemma count10_le_splitNl : ∀ xs : List Nat, xs.count 10 ≤ (splitNl xs).length := by
  intro xs
  induction xs with
  | nil => simp [splitNl]
  | cons b rest ih =>
    by_cases hb : b = 10
    · subst hb
      rw [splitNl, if_pos rfl]
      simp [List.count_cons]
      omega
    · rw [splitNl, if_neg hb]
      rcases hsp : splitNl rest with _ | ⟨l, ls⟩ <;> rw [hsp] at ih <;>
        simp [List.count_cons, hb] at ih ⊢ <;> omega

/-- Segments of the split carry no LF byte and only bytes of the input. -/
lemma splitNl_mem : ∀ (xs seg : List Nat), seg ∈ splitNl xs →
    10 ∉ seg ∧ ∀ b ∈ seg, b ∈ xs := by
  intro xs
  induction xs with
  | nil => simp [splitNl]
  | cons b rest ih =>
    intro seg hseg
    by_cases hb : b = 10
    · subst hb
      rw [splitNl, if_pos rfl] at hseg
      rcases List.mem_cons.mp hseg with rfl | h
      · simp
      · obtain ⟨h1, h2⟩ := ih seg h
        exact ⟨h1, fun x hx => List.mem_cons_of_mem _ (h2 x hx)⟩
    · rw [splitNl, if_neg hb] at hseg
      rcases hsp : splitNl rest with _ | ⟨l, ls⟩ <;> rw [hsp] at hseg
      · rcases List.mem_singleton.mp hseg with rfl
        constructor
        · simp
          intro h
          exact hb h.symm
        · simp
      · rcases List.mem_cons.mp hseg with rfl | hseg2
        · have hl := ih l (by rw [hsp]; exact List.mem_cons_self _ _)
          constructor
          · simp [hl.1]
            intro h
            exact hb h.symm
          · intro x hx
            rcases List.mem_cons.mp hx with rfl | hx2
            · exact List.mem_cons_self _ _
            · exact List.mem_cons_of_mem _ (hl.2 x hx2)
        · have hs := ih seg (by rw [hsp]; exact List.mem_cons_of_mem _ hseg2)
          exact ⟨hs.1, fun x hx => List.mem_cons_of_mem _ (hs.2 x hx)⟩

/-! ### Lemmas about splitlines, composed from the two halves -/

/-- splitlines distributes at an LF byte. -/
lemma splitlines_append_nl (u v : List Nat) :
    splitlines (u ++ 10 :: v) = splitlines (u ++ [10]) ++ splitlines v := by
  rw [splitlines, normEol_append_nl u.length u v (le_refl _)]
  obtain ⟨w, hw⟩ := normEol_nl_suffix u.length u (le_refl _)
  rw [hw, splitNl_append_nl, splitlines, splitlines, hw]

/-- The number of logical lines dominates the LF count. -/
lemma count10_le_splitlines (bs : List Nat) :
    bs.count 10 ≤ (splitlines bs).length := by
  exact le_trans (count10_le_normEol bs.length bs (le_refl _))
    (count10_le_splitNl (normEol bs))

/-- A logical line contains neither LF nor CR. -/
lemma splitlines_mem {bs seg : List Nat} (h : seg ∈ splitlines bs) :
    10 ∉ seg ∧ 13 ∉ seg := by
  obtain ⟨h1, h2⟩ := splitNl_mem (normEol bs) seg h
  refine ⟨h1, fun h13 => ?_⟩
  exact not_mem13_normEol bs.length bs (le_refl _) (h2 13 h13)

/-- Decomposition of a byte string at its first LF byte. -/
lemma exists_first_nl : ∀ s : List Nat, 10 ∈ s →
    ∃ a b, s = a ++ 10 :: b ∧ s.count 10 = b.count 10 + 1 := by
  intro s
  induction s with
  | nil => simp
  | cons x rest ih =>
    intro hmem
    by_cases hx : x = 10
    · subst hx
      exact ⟨[], rest, rfl, by simp [List.count_cons]⟩
    · have hr : 10 ∈ rest := by
        rcases List.mem_cons.mp hmem with h | h
        · exact absurd h.symm hx
        · exact h
      obtain ⟨a, b, h1, h2⟩ := ih hr
      refine ⟨x :: a, b, by rw [h1]; rfl, ?_⟩
      simp [List.count_cons, hx, h2]

/-! ### Lemmas about the final slice -/

lemma lastSlice_append {n : Nat} (hn : 1 ≤ n) (l1 l2 : List (List Nat))
    (h : n ≤ l2.length) :
    lastSlice n (l1 ++ l2) = lastSlice n l2 := by
  rw [lastSlice, lastSlice, if_neg (by omega), if_neg (by omega),
    List.length_append, List.drop_append_eq_append_drop,
    List.drop_eq_nil_of_le (by omega), List.nil_append]
  congr 1
  omega

lemma lastSlice_subset {n : Nat} {xs : List (List Nat)} {seg : List Nat}
    (h : seg ∈ lastSlice n xs) : seg ∈ xs := by
  rw [lastSlice] at h
  split at h
  · exact h
  · exact List.drop_subset _ xs h

/-- Central correctness lemma: taking the last requested lines of the split
of the scanned suffix gives the same result as on the whole file.  Either
the scan consumed the whole file, or its buffer contains more LF bytes than
lines are requested, and then the bytes dropped in front of the buffer can
only influence segments that the final slice discards. -/
lemma tail_lastSlice (file : List Nat) {lines : Nat} (hl : 1 ≤ lines) :
    lastSlice lines (splitlines (tailData file lines)) =
      lastSlice lines (splitlines file) := by
  obtain ⟨c2, hle, hdata, hexit⟩ := tailData_spec file lines
  rcases hexit with h0 | hcount
  · subst h0
    rw [hdata]
    simp
  · have hmem : 10 ∈ tailData file lines := by
      have : 0 < (tailData file lines).count 10 := by omega
      exact List.count_pos_iff.mp this
    obtain ⟨a, b, hab, hcnt⟩ := exists_first_nl _ hmem
    have hblen : lines ≤ (splitlines b).length :=
      le_trans (by omega) (count10_le_splitlines b)
    have hfile : file = (file.take c2 ++ a) ++ 10 :: b := by
      rw [List.append_assoc, ← hab, hdata]
      exact (List.take_append_drop _ _).symm
    have hL := splitlines_append_nl a b
    have hR := splitlines_append_nl (file.take c2 ++ a) b
    conv_rhs => rw [hfile]
    rw [hab, hL, hR, lastSlice_append hl _ _ hblen, lastSlice_append hl _ _ hblen]

/-! ### Lemmas about the decoder -/

/-- The ignore policy produces a sublist of what any other error policy
produces: errors contribute nothing instead of the replacement text, and all
well-formed sequences decode identically. -/
lemma utf8DecodeF_nil_sublist (err : List Nat) :
    ∀ fuel bs, List.Sublist (utf8DecodeF [] fuel bs) (utf8DecodeF err fuel bs) := by
  intro fuel
  induction fuel with
  | zero => intro bs; cases bs <;> simp [utf8DecodeF]
  | succ f ih =>
    intro bs
    cases bs with
    | nil => simp [utf8DecodeF]
    | cons b rest =>
      by_cases h1 : b < 0x80
      · simp only [utf8DecodeF, if_pos h1]
        exact (ih rest).cons₂ b
      · by_cases h2 : (0xC2 ≤ b && b ≤ 0xDF) = true
        · cases rest with
          | nil =>
            simp only [utf8DecodeF, if_neg h1, if_pos h2]
            exact List.nil_sublist err
          | cons c1 rest1 =>
            by_cases hc1 : isCont c1 = true
            · simp only [utf8DecodeF, if_neg h1, if_pos h2, if_pos hc1]
              exact (ih rest1).cons₂ _
            · simp only [utf8DecodeF, if_neg h1, if_pos h2, if_neg hc1, List.nil_append]
              exact (ih (c1 :: rest1)).trans (List.sublist_append_right err _)
        · by_cases h3 : (0xE0 ≤ b && b ≤ 0xEF) = true
          · cases rest with
            | nil =>
              simp only [utf8DecodeF, if_neg h1, if_neg h2, if_pos h3]
              exact List.nil_sublist err
            | cons c1 rest1 =>
              by_cases hc1 : cont3Ok b c1 = true
              · cases rest1 with
                | nil =>
                  simp only [utf8DecodeF, if_neg h1, if_neg h2, if_pos h3, if_pos hc1]
                  exact List.nil_sublist err
                | cons c2 rest2 =>
                  by_cases hc2 : isCont c2 = true
                  · simp only [utf8DecodeF, if_neg h1, if_neg h2, if_pos h3,
                      if_pos hc1, if_pos hc2]
                    exact (ih rest2).cons₂ _
                  · simp only [utf8DecodeF, if_neg h1, if_neg h2, if_pos h3,
                      if_pos hc1, if_neg hc2, List.nil_append]
                    exact (ih (c2 :: rest2)).trans (List.sublist_append_right err _)
              · simp only [utf8DecodeF, if_neg h1, if_neg h2, if_pos h3, if_neg hc1,
                  List.nil_append]
                exact (ih (c1 :: rest1)).trans (List.sublist_append_right err _)
          · by_cases h4 : (0xF0 ≤ b && b ≤ 0xF4) = true
            · cases rest with
              | nil =>
                simp only [utf8DecodeF, if_neg h1, if_neg h2, if_neg h3, if_pos h4]
                exact List.nil_sublist err
              | cons c1 rest1 =>
                by_cases hc1 : cont4Ok b c1 = true
                · cases rest1 with
                  | nil =>
                    simp only [utf8DecodeF, if_neg h1, if_neg h2, if_neg h3,
                      if_pos h4, if_pos hc1]
                    exact List.nil_sublist err
                  | cons c2 rest2 =>
                    by_cases hc2 : isCont c2 = true
                    · cases rest2 with
                      | nil =>
                        simp only [utf8DecodeF, if_neg h1, if_neg h2, if_neg h3,
                          if_pos h4, if_pos hc1, if_pos hc2]
                        exact List.nil_sublist err
                      | cons c3 rest3 =>
                        by_cases hc3 : isCont c3 = true
                        · simp only [utf8DecodeF, if_neg h1, if_neg h2, if_neg h3,
                            if_pos h4, if_pos hc1, if_pos hc2, if_pos hc3]
                          exact (ih rest3).cons₂ _
                        · simp only [utf8DecodeF, if_neg h1, if_neg h2, if_neg h3,
                            if_pos h4, if_pos hc1, if_pos hc2, if_neg hc3,
                            List.nil_append]
                          exact (ih (c3 :: rest3)).trans (List.sublist_append_right err _)
                    · simp only [utf8DecodeF, if_neg h1, if_neg h2, if_neg h3,
                        if_pos h4, if_pos hc1, if_neg hc2, List.nil_append]
                      exact (ih (c2 :: rest2)).trans (List.sublist_append_right err _)
                · simp only [utf8DecodeF, if_neg h1, if_neg h2, if_neg h3,
                    if_pos h4, if_neg hc1, List.nil_append]
                  exact (ih (c1 :: rest1)).trans (List.sublist_append_right err _)
            · simp only [utf8DecodeF, if_neg h1, if_neg h2, if_neg h3, if_neg h4,
                List.nil_append]
              exact (ih rest).trans (List.sublist_append_right err _)

/-- The decode of a byte string without LF and CR bytes contains no LF and
no CR code point, provided the error text has none either: ASCII output
copies input bytes, multi-byte sequences decode to code points of at least
0x80. -/
lemma utf8DecodeF_no_eol (err : List Nat) (herr : ∀ e ∈ err, e ≠ 10 ∧ e ≠ 13) :
    ∀ fuel bs, 10 ∉ bs → 13 ∉ bs →
      ∀ cp ∈ utf8DecodeF err fuel bs, cp ≠ 10 ∧ cp ≠ 13 := by
  intro fuel
  induction fuel with
  | zero =>
    intro bs h10 h13 cp hcp
    cases bs <;> simp [utf8DecodeF] at hcp
  | succ f ih =>
    intro bs h10 h13 cp hcp
    cases bs with
    | nil => simp [utf8DecodeF] at hcp
    | cons b rest =>
      have hb10 : b ≠ 10 := fun h => h10 (h ▸ List.mem_cons_self b rest)
      have hb13 : b ≠ 13 := fun h => h13 (h ▸ List.mem_cons_self b rest)
      have hr10 : 10 ∉ rest := fun h => h10 (List.mem_cons_of_mem b h)
      have hr13 : 13 ∉ rest := fun h => h13 (List.mem_cons_of_mem b h)
      by_cases h1 : b < 0x80
      · simp only [utf8DecodeF, if_pos h1] at hcp
        rcases List.mem_cons.mp hcp with rfl | h
        · exact ⟨hb10, hb13⟩
        · exact ih rest hr10 hr13 cp h
      · by_cases h2 : (0xC2 ≤ b && b ≤ 0xDF) = true
        · cases rest with
          | nil =>
            simp only [utf8DecodeF, if_neg h1, if_pos h2] at hcp
            exact herr cp hcp
          | cons c1 rest1 =>
            have hs10 : 10 ∉ rest1 := fun h => hr10 (List.mem_cons_of_mem c1 h)
            have hs13 : 13 ∉ rest1 := fun h => hr13 (List.mem_cons_of_mem c1 h)
            by_cases hc1 : isCont c1 = true
            · simp only [utf8DecodeF, if_neg h1, if_pos h2, if_pos hc1] at hcp
              simp only [Bool.and_eq_true, decide_eq_true_eq] at h2
              rcases List.mem_cons.mp hcp with rfl | h
              · constructor <;> · intro hv; omega
              · exact ih rest1 hs10 hs13 cp h
            · simp only [utf8DecodeF, if_neg h1, if_pos h2, if_neg hc1] at hcp
              rcases List.mem_append.mp hcp with h | h
              · exact herr cp h
              · exact ih (c1 :: rest1) hr10 hr13 cp h
        · by_cases h3 : (0xE0 ≤ b && b ≤ 0xEF) = true
          · cases rest with
            | nil =>
              simp only [utf8DecodeF, if_neg h1, if_neg h2, if_pos h3] at hcp
              exact herr cp hcp
            | cons c1 rest1 =>
              have hs10 : 10 ∉ rest1 := fun h => hr10 (List.mem_cons_of_mem c1 h)
              have hs13 : 13 ∉ rest1 := fun h => hr13 (List.mem_cons_of_mem c1 h)
              by_cases hc1 : cont3Ok b c1 = true
              · cases rest1 with
                | nil =>
                  simp only [utf8DecodeF, if_neg h1, if_neg h2, if_pos h3,
                    if_pos hc1] at hcp
                  exact herr cp hcp
                | cons c2 rest2 =>
                  have ht10 : 10 ∉ rest2 := fun h => hs10 (List.mem_cons_of_mem c2 h)
                  have ht13 : 13 ∉ rest2 := fun h => hs13 (List.mem_cons_of_mem c2 h)
                  by_cases hc2 : isCont c2 = true
                  · simp only [utf8DecodeF, if_neg h1, if_neg h2, if_pos h3,
                      if_pos hc1, if_pos hc2] at hcp
                    simp only [Bool.and_eq_true, decide_eq_true_eq] at h3
                    rcases List.mem_cons.mp hcp with rfl | h
                    · by_cases hbE0 : b = 0xE0
                      · subst hbE0
                        simp [cont3Ok] at hc1
                        constructor <;> · intro hv; omega
                      · have hb1 : 0xE1 ≤ b := by omega
                        constructor <;> · intro hv; omega
                    · exact ih rest2 ht10 ht13 cp h
                  · simp only [utf8DecodeF, if_neg h1, if_neg h2, if_pos h3,
                      if_pos hc1, if_neg hc2] at hcp
                    rcases List.mem_append.mp hcp with h | h
                    · exact herr cp h
                    · exact ih (c2 :: rest2) hs10 hs13 cp h
              · simp only [utf8DecodeF, if_neg h1, if_neg h2, if_pos h3,
                  if_neg hc1] at hcp
                rcases List.mem_append.mp hcp with h | h
                · exact herr cp h
                · exact ih (c1 :: rest1) hr10 hr13 cp h
          · by_cases h4 : (0xF0 ≤ b && b ≤ 0xF4) = true
            · cases rest with
              | nil =>
                simp only [utf8DecodeF, if_neg h1, if_neg h2, if_neg h3,
                  if_pos h4] at hcp
                exact herr cp hcp
              | cons c1 rest1 =>
                have hs10 : 10 ∉ rest1 := fun h => hr10 (List.mem_cons_of_mem c1 h)
                have hs13 : 13 ∉ rest1 := fun h => hr13 (List.mem_cons_of_mem c1 h)
                by_cases hc1 : cont4Ok b c1 = true
                · cases rest1 with
                  | nil =>
                    simp only [utf8DecodeF, if_neg h1, if_neg h2, if_neg h3,
                      if_pos h4, if_pos hc1] at hcp
                    exact herr cp hcp
                  | cons c2 rest2 =>
                    have ht10 : 10 ∉ rest2 := fun h => hs10 (List.mem_cons_of_mem c2 h)
                    have ht13 : 13 ∉ rest2 := fun h => hs13 (List.mem_cons_of_mem c2 h)
                    by_cases hc2 : isCont c2 = true
                    · cases rest2 with
                      | nil =>
                        simp only [utf8DecodeF, if_neg h1, if_neg h2, if_neg h3,
                          if_pos h4, if_pos hc1, if_pos hc2] at hcp
                        exact herr cp hcp
                      | cons c3 rest3 =>
                        have hu10 : 10 ∉ rest3 :=
                          fun h => ht10 (List.mem_cons_of_mem c3 h)
                        have hu13 : 13 ∉ rest3 :=
                          fun h => ht13 (List.mem_cons_of_mem c3 h)
                        by_cases hc3 : isCont c3 = true
                        · simp only [utf8DecodeF, if_neg h1, if_neg h2, if_neg h3,
                            if_pos h4, if_pos hc1, if_pos hc2, if_pos hc3] at hcp
                          simp only [Bool.and_eq_true, decide_eq_true_eq] at h4
                          rcases List.mem_cons.mp hcp with rfl | h
                          · by_cases hbF0 : b = 0xF0
                            · subst hbF0
                              simp [cont4Ok] at hc1
                              constructor <;> · intro hv; omega
                            · have hb1 : 0xF1 ≤ b := by omega
                              constructor <;> · intro hv; omega
                          · exact ih rest3 hu10 hu13 cp h
                        · simp only [utf8DecodeF, if_neg h1, if_neg h2, if_neg h3,
                            if_pos h4, if_pos hc1, if_pos hc2, if_neg hc3] at hcp
                          rcases List.mem_append.mp hcp with h | h
                          · exact herr cp h
                          · exact ih (c3 :: rest3) ht10 ht13 cp h
                    · simp only [utf8DecodeF, if_neg h1, if_neg h2, if_neg h3,
                        if_pos h4, if_pos hc1, if_neg hc2] at hcp
                      rcases List.mem_append.mp hcp with h | h
                      · exact herr cp h
                      · exact ih (c2 :: rest2) hs10 hs13 cp h
                · simp only [utf8DecodeF, if_neg h1, if_neg h2, if_neg h3,
                    if_pos h4, if_neg hc1] at hcp
                  rcases List.mem_append.mp hcp with h | h
                  · exact herr cp h
                  · exact ih (c1 :: rest1) hr10 hr13 cp h
            · simp only [utf8DecodeF, if_neg h1, if_neg h2, if_neg h3,
                if_neg h4] at hcp
              rcases List.mem_append.mp hcp with h | h
              · exact herr cp h
              · exact ih rest hr10 hr13 cp h

/-! ### Behavior of get_logs on a readable regular file -/

lemma get_logs_ok (p : Str) (content : List Nat) (lines : Nat) :
    get_logs p (.regular true content) lines =
      .ok { file := pathNorm p,
            lines := (lastSlice lines (splitlines (tailData content lines))).map
              decodeIgnore } := by
  simp [get_logs]

/-- ASCII input decodes to itself under every error policy: decoding a
well-formed line never invokes the error handler. -/
lemma utf8DecodeF_ascii (err : List Nat) :
    ∀ fuel bs, bs.length ≤ fuel → (∀ x ∈ bs, x < 0x80) →
      utf8DecodeF err fuel bs = bs := by
  intro fuel
  induction fuel with
  | zero =>
    intro bs hf _
    obtain rfl : bs = [] := List.eq_nil_of_length_eq_zero (Nat.le_zero.mp hf)
    simp [utf8DecodeF]
  | succ f ih =>
    intro bs hf hascii
    cases bs with
    | nil => simp [utf8DecodeF]
    | cons b rest =>
      have hb : b < 0x80 := hascii b (List.mem_cons_self b rest)
      simp only [utf8DecodeF, if_pos hb]
      rw [ih rest (by simpa using hf)
        (fun x hx => hascii x (List.mem_cons_of_mem b hx))]

/-! ### The claims -/

/-- C1: for every readable regular file whose content has at least K logical
lines and every K with 1 ≤ K ≤ 500, the call returns exactly the last K
logical lines of the file (decoded), in original oldest-to-newest order, and
the returned sequence has length at most K. -/
theorem claim_C1_last_lines (p : Str) (content : List Nat) (K : Nat)
    (h1 : 1 ≤ K) (h2 : K ≤ 500) (h3 : K ≤ (splitlines content).length) :
    get_logs p (.regular true content) K =
      .ok { file := pathNorm p,
            lines := ((splitlines content).drop
              ((splitlines content).length - K)).map decodeIgnore } ∧
    (((splitlines content).drop ((splitlines content).length - K)).map
      decodeIgnore).length ≤ K := by
  have hcore := @tail_lastSlice content K h1
  constructor
  · rw [get_logs_ok, hcore, lastSlice, if_neg (by omega)]
  · rw [List.length_map, List.length_drop]
    omega

/-- Witness for C1: the file with content "a\nb\nc\n" and K = 2. -/
theorem claim_C1_witness :
    get_logs [102] (.regular true [97, 10, 98, 10, 99, 10]) 2 =
      .ok { file := pathNorm [102],
            lines := ((splitlines [97, 10, 98, 10, 99, 10]).drop
              ((splitlines [97, 10, 98, 10, 99, 10]).length - 2)).map decodeIgnore } ∧
    (((splitlines [97, 10, 98, 10, 99, 10]).drop
      ((splitlines [97, 10, 98, 10, 99, 10]).length - 2)).map decodeIgnore).length ≤ 2 :=
  claim_C1_last_lines [102] [97, 10, 98, 10, 99, 10] 2 (by decide) (by decide) (by decide)

/-- C2 counterexample: the claim says invalid bytes are replaced with a
placeholder so that they appear substituted in the result.  On the file with
content 0xFF 0x61 the code returns the line decoded to "a": the invalid byte
is dropped, not substituted, which differs from the replace decoding the
claim describes. -/
theorem claim_C2_counterexample :
    get_logs [102] (.regular true [255, 97]) 5 =
        .ok { file := [102], lines := [[97]] } ∧
      decodeReplace [255, 97] = [0xFFFD, 97] ∧
      decodeIgnore [255, 97] ≠ decodeReplace [255, 97] :=
  ⟨by decide, by decide, by decide⟩

/-- C2 amended: decoding never raises and never drops a line — the result
has one decoded string per raw line, and a well-formed (here: ASCII) line
decodes losslessly — but an ill-formed byte sequence is dropped (ignored),
not substituted with a placeholder: the ignore decode is a sublist of the
replace decode, missing exactly the replacement marks. -/
theorem claim_C2_lossy_decode (ls : List (List Nat)) (bs : List Nat)
    (hascii : ∀ x ∈ bs, x < 0x80) :
    (ls.map decodeIgnore).length = ls.length ∧
    decodeIgnore bs = bs ∧
    ∀ cs : List Nat, List.Sublist (decodeIgnore cs) (decodeReplace cs) := by
  refine ⟨List.length_map _ _, ?_, ?_⟩
  · exact utf8DecodeF_ascii [] bs.length bs (le_refl _) hascii
  · intro cs
    exact utf8DecodeF_nil_sublist [0xFFFD] cs.length cs

/-- Witness for the amended C2, on the lines of "hi" and a corrupt byte. -/
theorem claim_C2_witness :
    ([[104, 105]].map decodeIgnore).length = [[104, 105]].length ∧
    decodeIgnore [104, 105] = [104, 105] ∧
    ∀ cs : List Nat, List.Sublist (decodeIgnore cs) (decodeReplace cs) :=
  claim_C2_lossy_decode [[104, 105]] [104, 105] (by decide)

/-- C3: the call fails with 404 exactly when the path is not an existing
regular file, fails with 403 exactly when it is a regular file that is not
readable, succeeds exactly when it is a readable regular file, and no status
other than 404 and 403 is ever raised — the content of a readable file never
causes a failure. -/
theorem claim_C3_error_taxonomy (p : Str) (entry : FsEntry) (K : Nat) :
    (get_logs p entry K = .error 404 ↔ entry = .missing ∨ entry = .notRegular) ∧
    (get_logs p entry K = .error 403 ↔ ∃ c, entry = .regular false c) ∧
    ((∃ r, get_logs p entry K = .ok r) ↔ ∃ c, entry = .regular true c) ∧
    (∀ e, get_logs p entry K = .error e → e = 404 ∨ e = 403) := by
  rcases entry with _ | _ | ⟨readable, content⟩
  · simp [get_logs]
  · simp [get_logs]
  · cases readable <;> simp [get_logs]

/-- Witness for C3: a missing path yields 404 and nothing else. -/
theorem claim_C3_witness : (404 : Nat) = 404 ∨ (404 : Nat) = 403 :=
  (claim_C3_error_taxonomy [102] .missing 1).2.2.2 404 (by decide)

/-- C4: at loop exit, either the buffer is the whole file, or it splits into
at least K + 1 newline-delimited segments; consequently when the file has
more than K logical lines the possibly incomplete first segment of the buffer
is never among the returned lines (the returned slice lies inside the tail
of the segment list). -/
theorem claim_C4_loop_invariant (content : List Nat) (K : Nat)
    (h1 : 1 ≤ K) (h2 : K ≤ 500) :
    (tailData content K = content ∨
      K + 1 ≤ (splitlines (tailData content K)).length) ∧
    (K < (splitlines content).length →
      List.IsSuffix (lastSlice K (splitlines (tailData content K)))
        (splitlines (tailData content K)).tail) := by
  obtain ⟨c2, hle, hdata, hexit⟩ := tailData_spec content K
  have hdisj : tailData content K = content ∨
      K + 1 ≤ (splitlines (tailData content K)).length := by
    rcases hexit with h0 | hcount
    · subst h0; rw [hdata]; simp
    · exact Or.inr (le_trans hcount (count10_le_splitlines _))
  refine ⟨hdisj, fun hmany => ?_⟩
  have hlen : K + 1 ≤ (splitlines (tailData content K)).length := by
    rcases hdisj with heq | hge
    · rw [heq]; omega
    · exact hge
  rw [lastSlice, if_neg (by omega)]
  have hsplit : (splitlines (tailData content K)).length - K =
      1 + ((splitlines (tailData content K)).length - K - 1) := by omega
  rw [hsplit, ← List.drop_drop, List.drop_one]
  exact List.drop_suffix _ _

/-- Witness for C4 at the file "a\nb\nc\n" with K = 1. -/
theorem claim_C4_witness :
    (tailData [97, 10, 98, 10, 99, 10] 1 = [97, 10, 98, 10, 99, 10] ∨
      1 + 1 ≤ (splitlines (tailData [97, 10, 98, 10, 99, 10] 1)).length) ∧
    List.IsSuffix (lastSlice 1 (splitlines (tailData [97, 10, 98, 10, 99, 10] 1)))
      (splitlines (tailData [97, 10, 98, 10, 99, 10] 1)).tail :=
  ⟨(claim_C4_loop_invariant [97, 10, 98, 10, 99, 10] 1 (by decide) (by decide)).1,
   (claim_C4_loop_invariant [97, 10, 98, 10, 99, 10] 1 (by decide) (by decide)).2
     (by decide)⟩

/-- C5: for every readable regular file with fewer than K logical lines and
every K with 1 ≤ K ≤ 500, the call succeeds and returns all logical lines of
the file, oldest first, with no padding, and fewer than K of them; a final
non-terminated fragment counts as a line. -/
theorem claim_C5_short_file (p : Str) (content : List Nat) (K : Nat)
    (h1 : 1 ≤ K) (h2 : K ≤ 500) (h3 : (splitlines content).length < K) :
    get_logs p (.regular true content) K =
      .ok { file := pathNorm p, lines := (splitlines content).map decodeIgnore } ∧
    ((splitlines content).map decodeIgnore).length < K := by
  have hcore := @tail_lastSlice content K h1
  constructor
  · rw [get_logs_ok, hcore, lastSlice, if_neg (by omega)]
    congr 1
    have : (splitlines content).length - K = 0 := by omega
    rw [this, List.drop_zero]
  · rw [List.length_map]
    omega

/-- Witness for C5: content "hello" with no trailing newline, K = 5, gives
back exactly the single line "hello". -/
theorem claim_C5_witness :
    get_logs [102] (.regular true [104, 101, 108, 108, 111]) 5 =
      .ok { file := pathNorm [102],
            lines := (splitlines [104, 101, 108, 108, 111]).map decodeIgnore } ∧
    ((splitlines [104, 101, 108, 108, 111]).map decodeIgnore).length < 5 :=
  claim_C5_short_file [102] [104, 101, 108, 108, 111] 5 (by decide) (by decide)
    (by decide)

/-- C6: on an empty file every requested count in [1, 500] succeeds with an
empty line sequence. -/
theorem claim_C6_empty_file (p : Str) (K : Nat) (h1 : 1 ≤ K) (h2 : K ≤ 500) :
    get_logs p (.regular true []) K = .ok { file := pathNorm p, lines := [] } := by
  rw [get_logs_ok]
  have hdata : tailData ([] : List Nat) K = [] := by
    rw [tailData, tailScan]
    simp [tailLoopF]
  rw [hdata]
  have hsplit : splitlines [] = [] := by simp [splitlines, normEol, splitNl]
  rw [hsplit, lastSlice, if_neg (by omega)]
  simp

/-- Witness for C6 at the default count 50. -/
theorem claim_C6_witness :
    get_logs [102] (.regular true []) 50 = .ok { file := pathNorm [102], lines := [] } :=
  claim_C6_empty_file [102] 50 (by decide) (by decide)

/-- C7: the reverse scan terminates for every file, requested count and
start state: with fuel equal to the cursor the loop always reaches its exit
condition, because every iteration moves the cursor strictly towards zero by
min cursor CHUNK bytes. -/
theorem claim_C7_termination (file : List Nat) (K cursor reads : Nat)
    (data : List Nat) :
    ∃ out, tailLoopF file K cursor cursor data reads = some out :=
  tailLoopF_total file K cursor cursor data reads (le_refl _)

/-- C9: every successful call echoes the canonicalized requested path (the
str(Path(file)) normalization) in the file field of the result. -/
theorem claim_C9_source_path (p : Str) (entry : FsEntry) (K : Nat) (r : LogLines)
    (h : get_logs p entry K = .ok r) : r.file = pathNorm p := by
  rcases entry with _ | _ | ⟨readable, content⟩
  · simp [get_logs] at h
  · simp [get_logs] at h
  · cases readable
    · simp [get_logs] at h
    · rw [get_logs_ok] at h
      obtain rfl := Except.ok.inj h.symm
      rfl

/-- Witness for C9: requesting path "a//b" echoes back "a/b". -/
theorem claim_C9_witness :
    LogLines.file { file := [97, 47, 98], lines := [] } = pathNorm [97, 47, 47, 98] :=
  claim_C9_source_path [97, 47, 47, 98] (.regular true []) 1 _ (by decide)

/-- C10: no returned line contains a line terminator: the split strips LF,
CR and CRLF terminators, and decoding cannot reintroduce them. -/
theorem claim_C10_no_terminators (p : Str) (entry : FsEntry) (K : Nat)
    (r : LogLines) (h : get_logs p entry K = .ok r) :
    ∀ s ∈ r.lines, 10 ∉ s ∧ 13 ∉ s := by
  rcases entry with _ | _ | ⟨readable, content⟩
  · simp [get_logs] at h
  · simp [get_logs] at h
  · cases readable
    · simp [get_logs] at h
    · rw [get_logs_ok] at h
      obtain rfl := Except.ok.inj h.symm
      intro s hs
      obtain ⟨seg, hseg, rfl⟩ := List.mem_map.mp hs
      obtain ⟨h10, h13⟩ := splitlines_mem (lastSlice_subset hseg)
      have hsafe := utf8DecodeF_no_eol [] (by simp) seg.length seg h10 h13
      constructor
      · intro hmem; exact (hsafe 10 hmem).1 rfl
      · intro hmem; exact (hsafe 13 hmem).2 rfl

/-- Witness for C10 on the file "a\nb" with K = 1. -/
theorem claim_C10_witness : 10 ∉ ([98] : Str) ∧ 13 ∉ ([98] : Str) :=
  claim_C10_no_terminators [102] (.regular true [97, 10, 98]) 1
    { file := [102], lines := [[98]] } (by decide) [98] (by decide)

/-- Step equation of the loop with the fuel given through an explicit
successor equation and fully explicit arguments, convenient for computing
concrete runs. -/
lemma tailLoopF_step2 (file : List Nat) (lines fuel f cursor reads : Nat)
    (data : List Nat) (hf : fuel = f + 1) (h1 : 0 < cursor)
    (h2 : data.count 10 ≤ lines) :
    tailLoopF file lines fuel cursor data reads =
      tailLoopF file lines f (cursor - min cursor CHUNK)
        ((file.drop (cursor - min cursor CHUNK)).take (min cursor CHUNK) ++ data)
        (reads + 1) := by
  subst hf
  exact tailLoopF_step h1 h2

/-- First read of the scan on the 24580-byte newline-free file. -/
lemma path_step1 :
    tailLoopF (List.replicate 24580 97) 1 24580 24580 [] 0 =
      tailLoopF (List.replicate 24580 97) 1 24579 16388 (List.replicate 8192 97) 1 := by
  rw [tailLoopF_step2 (List.replicate 24580 97) 1 24580 24579 24580 0 []
    (by norm_num) (by norm_num) (by simp)]
  norm_num [CHUNK, Nat.min_def, List.drop_replicate, List.take_replicate]

/-- Second read of the scan on the 24580-byte newline-free file. -/
lemma path_step2 :
    tailLoopF (List.replicate 24580 97) 1 24579 16388 (List.replicate 8192 97) 1 =
      tailLoopF (List.replicate 24580 97) 1 24578 8196 (List.replicate 16384 97) 2 := by
  rw [tailLoopF_step2 (List.replicate 24580 97) 1 24579 24578 16388 1
    (List.replicate 8192 97) (by norm_num) (by norm_num)
    (by rw [List.count_replicate]; norm_num)]
  norm_num [CHUNK, Nat.min_def, List.drop_replicate, List.take_replicate,
    ← List.replicate_add]

/-- Third read of the scan on the 24580-byte newline-free file. -/
lemma path_step3 :
    tailLoopF (List.replicate 24580 97) 1 24578 8196 (List.replicate 16384 97) 2 =
      tailLoopF (List.replicate 24580 97) 1 24577 4 (List.replicate 24576 97) 3 := by
  rw [tailLoopF_step2 (List.replicate 24580 97) 1 24578 24577 8196 2
    (List.replicate 16384 97) (by norm_num) (by norm_num)
    (by rw [List.count_replicate]; norm_num)]
  norm_num [CHUNK, Nat.min_def, List.drop_replicate, List.take_replicate,
    ← List.replicate_add]

/-- Fourth and final read: the cursor reaches zero with the whole file in
the buffer, after which the loop exits. -/
lemma path_step4 :
    tailLoopF (List.replicate 24580 97) 1 24577 4 (List.replicate 24576 97) 3 =
      tailLoopF (List.replicate 24580 97) 1 24576 0 (List.replicate 24580 97) 4 := by
  rw [tailLoopF_step2 (List.replicate 24580 97) 1 24577 24576 4 3
    (List.replicate 24576 97) (by norm_num) (by norm_num)
    (by rw [List.count_replicate]; norm_num)]
  norm_num [CHUNK, Nat.min_def, List.drop_replicate, List.take_replicate,
    ← List.replicate_add]

/-- Exit of the scan on the 24580-byte newline-free file. -/
lemma path_step5 :
    tailLoopF (List.replicate 24580 97) 1 24576 0 (List.replicate 24580 97) 4 =
      some (List.replicate 24580 97, 4) :=
  tailLoopF_stop (by norm_num)

/-- On a 24580-byte file without any newline and a requested count of one,
the scan performs four reads and buffers the whole file. -/
lemma tailScan_pathological :
    tailReads (List.replicate 24580 97) 1 = 4 ∧
    (tailData (List.replicate 24580 97) 1).length = 24580 := by
  have hlen : (List.replicate 24580 (97 : Nat)).length = 24580 := by
    rw [List.length_replicate]
  have hrun : tailLoopF (List.replicate 24580 97) 1 24580 24580 [] 0 =
      some (List.replicate 24580 97, 4) := by
    rw [path_step1, path_step2, path_step3, path_step4, path_step5]
  constructor
  · rw [tailReads, tailScan, hlen, hrun]
    rfl
  · rw [tailData, tailScan, hlen, hrun]
    show (List.replicate 24580 (97 : Nat)).length = 24580
    rw [List.length_replicate]

/-- C8 counterexample: the claim reads the scan cost as bounded by the
requested count (and the chunk size) uniformly in the file.  It is not: a
24580-byte file with no newline at all and a request for one line makes the
loop read the whole file in four chunked reads, exceeding both a
requested_lines + 2 read bound and a (requested_lines + 2) * CHUNK buffer
bound. -/
theorem claim_C8_counterexample :
    ¬ (∀ (file : List Nat) (K : Nat), 1 ≤ K → K ≤ 500 →
        tailReads file K ≤ K + 2 ∧
        (tailData file K).length ≤ (K + 2) * CHUNK) := by
  intro h
  obtain ⟨hr, hd⟩ := h (List.replicate 24580 97) 1 (by norm_num) (by norm_num)
  obtain ⟨hreads, hdata⟩ := tailScan_pathological
  rw [hreads] at hr
  norm_num at hr

/-- C8 amended: the scan cost is proportional to the span of the trailing
requested_lines + 1 newlines when they exist — if the last k bytes of the
file already hold more than K newlines, the buffer stays under k + CHUNK
bytes — and in every case the number of reads is at most one per started
chunk of the file and the buffer never exceeds the file size; without such a
k (newlines missing or far from the end) the loop may read the whole file,
so no bound uniform in K alone holds. -/
theorem claim_C8_amended (file : List Nat) (K k : Nat)
    (hk : K < ((file.drop (file.length - k)).count 10)) :
    (tailData file K).length < k + CHUNK ∧
    tailReads file K ≤ (file.length + CHUNK - 1) / CHUNK ∧
    (tailData file K).length ≤ file.length := by
  obtain ⟨out, hout⟩ := tailLoopF_total file K file.length file.length [] 0 (le_refl _)
  have hdata : tailData file K = out.1 := by rw [tailData, tailScan, hout]; rfl
  have hreads : tailReads file K = out.2 := by rw [tailReads, tailScan, hout]; rfl
  refine ⟨?_, ?_, ?_⟩
  · rcases tailLoopF_len file K k hk file.length file.length [] 0 out (le_refl _)
      (List.drop_length file).symm hout with hlt | hle
    · rw [hdata]; exact hlt
    · rw [hdata]
      have hC := chunk_pos
      have h0 : out.1.length = 0 := by simpa using hle
      omega
  · have := tailLoopF_reads file K file.length file.length [] 0 out hout
    rw [hreads]
    omega
  · obtain ⟨c2, _, h1, _⟩ := tailData_spec file K
    rw [h1, List.length_drop]
    omega

/-- Witness for the amended C8 on the file of three newline bytes, K = 1 and
k = 2: the last two bytes hold two newlines. -/
theorem claim_C8_witness :
    (tailData [10, 10, 10] 1).length < 2 + CHUNK ∧
    tailReads [10, 10, 10] 1 ≤ (([10, 10, 10] : List Nat).length + CHUNK - 1) / CHUNK ∧
    (tailData [10, 10, 10] 1).length ≤ ([10, 10, 10] : List Nat).length :=
  claim_C8_amended [10, 10, 10] 1 2 (by decide)

end ResourceExporter
